import Mathlib

/-!
# Verification of the batch credential validator

Shallow embedding of the core of `src/App.tsx` (the ChatGPT API key
validator): the key-extraction algorithms (`extractKeysFromText` and the
non-streaming regex scan in `handleValidate`), the result-table seeding,
queue construction and worker pool of `handleValidate`/`processNext`, the
response classification, and the `maskKey` display helper.  Strings are
modelled as `List Char` (the sources only ever manipulate ASCII keys and
model identifiers), machine integers as `Nat`.
-/

namespace KeyValidator

/-! ## Key extraction

The regular expression `/sk-[a-zA-Z0-9_-]+/g` used in both
`extractKeysFromText` (App.tsx:162) and `handleValidate` (App.tsx:274).
`isKeyChar` is the character class `[a-zA-Z0-9_-]`. -/

def isKeyChar (c : Char) : Bool :=
  ('a' ≤ c && c ≤ 'z') || ('A' ≤ c && c ≤ 'Z') || ('0' ≤ c && c ≤ '9') ||
    c = '_' || c = '-'

/-- One global pass of `/sk-[a-zA-Z0-9_-]+/g`: scan left to right; at each
position try to match the literal `sk-` followed by a maximal nonempty run
of `isKeyChar` characters; on success emit the match and resume after it,
on failure advance one character.  The fuel argument is an upper bound on
the number of scan steps; `scanMatches` supplies `l.length`, which always
suffices because every step consumes at least one character. -/
def scanMatchesF : Nat → List Char → List (List Char)
  | 0, _ => []
  | _, [] => []
  | fuel + 1, 's' :: 'k' :: '-' :: rest =>
    let run := rest.takeWhile isKeyChar
    if run.isEmpty then
      scanMatchesF fuel ('k' :: '-' :: rest)
    else
      ('s' :: 'k' :: '-' :: run) :: scanMatchesF fuel (rest.dropWhile isKeyChar)
  | fuel + 1, _ :: cs => scanMatchesF fuel cs

def scanMatches (l : List Char) : List (List Char) :=
  scanMatchesF l.length l

/-- `Array.from(new Set(matches))`: first-seen-order deduplication
(App.tsx:275). -/
def dedupAcc : List (List Char) → List (List Char) → List (List Char)
  | _, [] => []
  | seen, k :: ks =>
    if k ∈ seen then dedupAcc seen ks else k :: dedupAcc (k :: seen) ks

def dedupKeep (l : List (List Char)) : List (List Char) :=
  dedupAcc [] l

/-- The non-streaming extraction performed directly on the textarea input at
the start of `handleValidate` (App.tsx:274-275):
`Array.from(new Set(input.match(/sk-[a-zA-Z0-9_-]+/g) || []))`. -/
def uniqueKeysOfInput (input : List Char) : List (List Char) :=
  dedupKeep (scanMatches input)

/-- `keys.add(matches[i])` repeated over a match list: insert each match into
the accumulated key set, keeping insertion order (App.tsx:163-167). -/
def addKeys (keys : List (List Char)) : List (List Char) → List (List Char)
  | [] => keys
  | m :: ms => addKeys (if m ∈ keys then keys else keys ++ [m]) ms

/-- `processText.lastIndexOf('\n')` (App.tsx:152): index of the last newline,
`none` when absent (the source uses `-1`). -/
def lastIdxNl : List Char → Option Nat
  | [] => none
  | c :: cs =>
    match lastIdxNl cs with
    | some i => some (i + 1)
    | none => if c = '\n' then some 0 else none

/-- The body of the `while (offset < file.size)` loop of
`extractKeysFromText` (App.tsx:147-180), one constructor argument per piece
of mutable loop state (`remaining` stands for the unread part of the file,
i.e. the file from `offset` on).  Each iteration reads one chunk, prepends
the carried `tail`, and — when the last newline sits at a positive index and
a later chunk remains — scans only the part before that newline, carrying
the rest (from the newline on) as the new tail; otherwise it scans
everything and clears the tail.  After the loop the leftover tail is
scanned.  The fuel bounds the iteration count; `extractKeysFromText`
supplies `file.length + 1`, enough for every positive chunk size. -/
def chunkedLoopF : Nat → Nat → List Char → List Char → List (List Char) →
    List (List Char)
  | _, _, [], tail, keys =>
    if tail.isEmpty then keys else addKeys keys (scanMatches tail)
  | 0, _, _, _, keys => keys
  | fuel + 1, chunkSize, remaining, tail, keys =>
    let chunk := remaining.take chunkSize
    let rest := remaining.drop chunkSize
    let processText := tail ++ chunk
    let split :=
      match lastIdxNl processText with
      | some i =>
        if 0 < i ∧ rest ≠ [] then (processText.take i, processText.drop i)
        else (processText, [])
      | none => (processText, [])
    chunkedLoopF fuel chunkSize rest split.2 (addKeys keys (scanMatches split.1))

/-- The chunk size hard-coded in the source (`1024 * 1024 * 10`,
App.tsx:142). -/
def CHUNK_SIZE : Nat := 1024 * 1024 * 10

/-- `extractKeysFromText` (App.tsx:141-183), generalized over the chunk
size: the source fixes `chunkSize := CHUNK_SIZE`, while the boundary-safety
claim quantifies over every fixed-size chunking of the input. -/
def extractKeysFromText (chunkSize : Nat) (file : List Char) :
    List (List Char) :=
  chunkedLoopF (file.length + 1) chunkSize file [] []

/-! ## Display masking -/

/-- `maskKey` (App.tsx:429-432): keys of length at most 10 render as `***`;
longer keys render as the first 7 characters, an ellipsis, and the last 4
characters. -/
def maskKey (key : List Char) : List Char :=
  if key.length ≤ 10 then ['*', '*', '*']
  else key.take 7 ++ ['.', '.', '.'] ++ key.drop (key.length - 4)

/-! ## Data model

`KeyResult` (App.tsx:64-69), the run status held in `statusRef`
(App.tsx:80), and the per-worker control position of `processNext`. -/

inductive VStatus where
  | pending
  | validating
  | valid
  | invalid
  | error
deriving DecidableEq, Repr

structure KeyResult where
  key : List Char
  status : VStatus
  models : List (List Char)
  errorMsg : Option String
deriving DecidableEq, Repr

/-- The values of `statusRef.current` (App.tsx:80): `stopped` is a distinct
signal value observed by workers (the rendered UI maps it to idle). -/
inductive RunState where
  | idle
  | running
  | paused
  | stopped
deriving DecidableEq, Repr

/-- Control position of one `processNext` instance.  The JavaScript event
loop runs each worker atomically between `await` points, so a worker is
observable only at the top of its loop (before the dequeue) or suspended on
the network call for a dequeued index; a finished worker has returned. -/
inductive WorkerState where
  | loopTop
  | inFlight (i : Nat)
  | done
deriving DecidableEq, Repr

/-! ## Response classification

The classification of one `fetch` outcome in `processNext`
(App.tsx:329-360).  Model identifiers are `List Char`; `lexLe` is the
lexicographic comparison by character code that JavaScript's default
`Array.prototype.sort` applies to strings. -/

def lexLe : List Char → List Char → Bool
  | [], _ => true
  | _ :: _, [] => false
  | a :: as, b :: bs =>
    if a < b then true else if b < a then false else lexLe as bs

def LexLeP (a b : List Char) : Prop := lexLe a b = true

instance : DecidableRel LexLeP := fun a b =>
  inferInstanceAs (Decidable (lexLe a b = true))

/-- The model-id filter of the 2xx branch (App.tsx:333-341). -/
def keepModel (m : List Char) : Bool :=
  "gpt-".toList.isPrefixOf m || "o1".toList.isPrefixOf m ||
    "o3".toList.isPrefixOf m || "dall-e".toList.isPrefixOf m ||
    "whisper".toList.isPrefixOf m || "tts".toList.isPrefixOf m ||
    "text-embedding".toList.isPrefixOf m

/-- `models.sort()` (App.tsx:342): sort the retained ids lexicographically
(insertion sort is a convenient executable comparison sort; JavaScript's
sort produces the same sorted permutation). -/
def sortModels (ms : List (List Char)) : List (List Char) :=
  ms.insertionSort LexLeP

/-- The filtered, sorted model list attached on a 2xx response
(App.tsx:331-342). -/
def classifyOkModels (ids : List (List Char)) : List (List Char) :=
  sortModels (ids.filter keepModel)

/-- `` `HTTP ${response.status}` `` (App.tsx:347). -/
def httpStatusMsg (code : Nat) : String :=
  "HTTP " ++ toString code

/-- The error message of a non-2xx response (App.tsx:347-353): the JSON
body's `error.message` when present, otherwise the HTTP status line. -/
def invalidErrorMsg (code : Nat) (bodyMsg : Option String) : String :=
  match bodyMsg with
  | some m => m
  | none => httpStatusMsg code

/-- Outcome of one `fetch('https://api.openai.com/v1/models', ...)` call:
a 2xx response carrying the parsed id list, a non-2xx response carrying the
status code and the optional `error.message` of its body, or a thrown
network error carrying its message. -/
inductive FetchResponse where
  | ok (ids : List (List Char))
  | httpError (code : Nat) (bodyMsg : Option String)
  | netFail (msg : String)
deriving DecidableEq, Repr

/-! ## Result-table seeding, queue construction, worker-pool start
(`handleValidate`, App.tsx:267-381) -/

/-- Seeding step of `handleValidate` (App.tsx:278-288): compare the incoming
unique key sequence with the table's key sequence by length plus pointwise
equality (`uniqueKeys.every((k, i) => k === existingKeys[i])`); on mismatch
rebuild the table with fresh `pending` entries. -/
def seed (uniqueKeys : List (List Char)) (results : List KeyResult) :
    List KeyResult :=
  let existingKeys := results.map (·.key)
  let keysMatch := uniqueKeys.length == existingKeys.length &&
    (uniqueKeys.zip existingKeys).all fun p => p.1 == p.2
  if keysMatch then results
  else uniqueKeys.map fun k =>
    { key := k, status := .pending, models := [], errorMsg := none }

/-- Queue construction (App.tsx:292-295): indices of the entries whose
status is `pending` or `error`, in table order. -/
def buildQueue (results : List KeyResult) : List Nat :=
  (results.enum.filter fun p =>
    decide (p.2.status = VStatus.pending) || decide (p.2.status = VStatus.error)).map
    Prod.fst

/-- `Math.max(1, Math.min(50, concurrencyLimit))` (App.tsx:297). -/
def clampConcurrency (limit : Nat) : Nat :=
  max 1 (min 50 limit)

/-- The shared mutable state of one validation run: the result table
(`resultsRef.current`), the run status (`statusRef.current`), the index
queue, and the control position of each started worker. -/
structure System where
  results : List KeyResult
  runState : RunState
  queue : List Nat
  workers : List WorkerState
deriving DecidableEq, Repr

/-- The synchronous start of `handleValidate` for a fresh run (App.tsx:
273-297, 369-373), i.e. the path taken when the run is not paused: extract
and deduplicate keys from the input, return unchanged (before any mutation)
when none match, otherwise seed the table, set the state running, build the
queue, and start `min(clamped concurrency, queue length)` workers at their
loop top. -/
def handleValidateStart (input : List Char) (concurrencyLimit : Nat)
    (results : List KeyResult) (runState : RunState) : System :=
  let uniqueKeys := uniqueKeysOfInput input
  if uniqueKeys.isEmpty then
    { results := results, runState := runState, queue := [], workers := [] }
  else
    let seeded := seed uniqueKeys results
    let queue := buildQueue seeded
    let concurrency := min (clampConcurrency concurrencyLimit) queue.length
    { results := seeded, runState := .running, queue := queue,
      workers := List.replicate concurrency .loopTop }

/-! ## The worker-pool small-step transition system -/

/-- Update the entry at one index of the table, leaving every other entry
alone (the embedding of `resultsRef.current[i].status = ...` style
single-entry mutations). -/
def updateAt (i : Nat) (f : KeyResult → KeyResult) :
    List KeyResult → List KeyResult
  | [] => []
  | r :: rs =>
    match i with
    | 0 => f r :: rs
    | j + 1 => r :: updateAt j f rs

/-- Completion of the network call of worker `w` on index `i`
(App.tsx:317-360): if the run was stopped while the call was in flight the
entry reverts to `pending` and the worker exits (the response is never
consulted); otherwise the response is classified and written — a 2xx
response makes the entry `valid` with the filtered sorted model list, a
non-2xx response makes it `invalid` with the extracted message, a thrown
network error makes it `error` with the error's message — and the worker
returns to its loop top (after the constant throttle delay). -/
def applyFetch (S : System) (w i : Nat) (resp : FetchResponse) : System :=
  if S.runState = .stopped then
    { S with
      results := updateAt i (fun r => { r with status := .pending }) S.results,
      workers := S.workers.set w .done }
  else
    let results :=
      match resp with
      | .ok ids =>
        updateAt i
          (fun r => { r with status := .valid, models := classifyOkModels ids })
          S.results
      | .httpError code bodyMsg =>
        updateAt i
          (fun r =>
            { r with status := .invalid,
                     errorMsg := some (invalidErrorMsg code bodyMsg) })
          S.results
      | .netFail msg =>
        updateAt i (fun r => { r with status := .error, errorMsg := some msg })
          S.results
    { S with results := results, workers := S.workers.set w .loopTop }

/-- Labels naming the atomic steps of a run (each label is one synchronous
slice of JavaScript between `await` points, or one UI handler). -/
inductive Label where
  | pop (w i : Nat)
  | exitStopped (w : Nat)
  | exitEmpty (w : Nat)
  | fetchDone (w i : Nat) (resp : FetchResponse)
  | pauseRun
  | resumeRun
  | stopRun
  | finishRun
deriving DecidableEq, Repr

/-- Small-step semantics of one run.

* `pop` — a worker at its loop top, with the run state `running` (neither
  stopped nor paused at its checkpoints, App.tsx:300-308), atomically
  shifts the head of the queue, marks that entry `validating`
  (App.tsx:310-313) and suspends on the network call.
* `exitStopped` — a worker observes `stopped` at a checkpoint and returns
  (App.tsx:301, 308).
* `exitEmpty` — the `while (queue.length > 0)` guard fails (App.tsx:300) or
  `queue.shift()` returns `undefined` (App.tsx:311): the worker returns.
* `fetchDone` — the in-flight call of a worker completes with some
  response; the effect is `applyFetch` (App.tsx:317-360).
* `pauseRun` — `handlePause` (App.tsx:383-385).
* `resumeRun` — `handleValidate` invoked while paused (App.tsx:268-271).
* `stopRun` — `handleStop` (App.tsx:387-393): set the signal and revert
  every `validating` entry to `pending` in one synchronous slice.
* `finishRun` — `await Promise.all(workers)` resolves with the run not
  stopped: the state settles to idle (App.tsx:375-380). -/
inductive Step : System → Label → System → Prop where
  | pop {S : System} {w i : Nat} {q : List Nat} :
      S.runState = .running →
      S.workers[w]? = some .loopTop →
      S.queue = i :: q →
      Step S (.pop w i)
        { S with
          results := updateAt i (fun r => { r with status := .validating }) S.results,
          queue := q,
          workers := S.workers.set w (.inFlight i) }
  | exitStopped {S : System} {w : Nat} :
      S.runState = .stopped →
      S.workers[w]? = some .loopTop →
      Step S (.exitStopped w) { S with workers := S.workers.set w .done }
  | exitEmpty {S : System} {w : Nat} :
      S.queue = [] →
      S.workers[w]? = some .loopTop →
      Step S (.exitEmpty w) { S with workers := S.workers.set w .done }
  | fetchDone {S : System} {w i : Nat} {resp : FetchResponse} :
      S.workers[w]? = some (.inFlight i) →
      Step S (.fetchDone w i resp) (applyFetch S w i resp)
  | pauseRun {S : System} :
      S.runState = .running →
      Step S .pauseRun { S with runState := .paused }
  | resumeRun {S : System} :
      S.runState = .paused →
      Step S .resumeRun { S with runState := .running }
  | stopRun {S : System} :
      Step S .stopRun
        { S with
          results := S.results.map fun r =>
            if r.status = .validating then { r with status := .pending } else r,
          runState := .stopped }
  | finishRun {S : System} :
      (∀ w ∈ S.workers, w = .done) →
      S.runState ≠ .stopped →
      Step S .finishRun { S with runState := .idle }

/-- Reachability from a run's initial state by any interleaving of steps. -/
inductive Reach (S0 : System) : System → Prop where
  | refl : Reach S0 S0
  | tail {S S' : System} {l : Label} : Reach S0 S → Step S l S' → Reach S0 S'

/-- Number of entries currently in `validating` status. -/
def countValidating (results : List KeyResult) : Nat :=
  (results.filter fun r => decide (r.status = VStatus.validating)).length

/-- Structural facts true of the state `handleValidateStart` hands to the
workers: the queue was built from the table, every started worker sits at
its loop top, and the table holds no `validating` entry (the UI only starts
a fresh run from idle, where no worker is live, and entries loaded from
storage are normalized away from `validating`, App.tsx:102-104). -/
structure GoodInit (S0 : System) : Prop where
  queue_eq : S0.queue = buildQueue S0.results
  workers_loopTop : ∀ w ∈ S0.workers, w = WorkerState.loopTop
  no_validating : ∀ r ∈ S0.results, r.status ≠ VStatus.validating

/-- Cross-run well-formedness of a table: entries that are not settled
results (`pending`, `error`, `validating`) carry no model list.  Fresh
seeded entries satisfy this, and (as proved below) every step preserves
it. -/
def WfModels (results : List KeyResult) : Prop :=
  ∀ (i : Nat) (r : KeyResult), results[i]? = some r →
    (r.status = VStatus.pending ∨ r.status = VStatus.error ∨
      r.status = VStatus.validating) → r.models = []

/-! ## Basic lemmas about the embedding -/

theorem length_updateAt (f : KeyResult → KeyResult) :
    ∀ (rs : List KeyResult) (i : Nat), (updateAt i f rs).length = rs.length := by
  intro rs
  induction rs with
  | nil => intro i; cases i <;> simp [updateAt]
  | cons r rs ih =>
    intro i
    cases i with
    | zero => simp [updateAt]
    | succ j => simpa [updateAt] using ih j

theorem getElem?_updateAt_ne (f : KeyResult → KeyResult) :
    ∀ (rs : List KeyResult) (i j : Nat), j ≠ i →
      (updateAt i f rs)[j]? = rs[j]? := by
  intro rs
  induction rs with
  | nil => intro i j _; cases i <;> simp [updateAt]
  | cons r rs ih =>
    intro i j hne
    cases i with
    | zero =>
      cases j with
      | zero => exact absurd rfl hne
      | succ j => simp [updateAt]
    | succ i =>
      cases j with
      | zero => simp [updateAt]
      | succ j =>
        have : j ≠ i := fun h => hne (by omega)
        simpa [updateAt] using ih i j this

theorem getElem?_updateAt_self (f : KeyResult → KeyResult) :
    ∀ (rs : List KeyResult) (i : Nat),
      (updateAt i f rs)[i]? = (rs[i]?).map f := by
  intro rs
  induction rs with
  | nil => intro i; cases i <;> simp [updateAt]
  | cons r rs ih =>
    intro i
    cases i with
    | zero => simp [updateAt]
    | succ j => simpa [updateAt] using ih j

theorem mem_set_of_ne {l : List WorkerState} {a b : WorkerState}
    {w : Nat} (ha : a ∈ l) (hw : l[w]? = some b) (hne : a ≠ b)
    (c : WorkerState) : a ∈ l.set w c := by
  obtain ⟨k, hk⟩ := List.mem_iff_getElem?.mp ha
  have hkw : k ≠ w := by
    intro h
    subst h
    rw [hk] at hw
    injection hw with h2
    exact hne h2
  refine List.mem_iff_getElem?.mpr ⟨k, ?_⟩
  rw [List.getElem?_set_ne (Ne.symm hkw)]
  exact hk

theorem mem_set_self {l : List WorkerState} {b : WorkerState} {w : Nat}
    (hw : l[w]? = some b) (c : WorkerState) : c ∈ l.set w c :=
  List.mem_iff_getElem?.mpr
    ⟨w, List.getElem?_set_eq_of_lt c (List.getElem?_eq_some.mp hw).1⟩

theorem zip_same_eq :
    ∀ (as : List (List Char)) (x y : List Char), (x, y) ∈ as.zip as → x = y := by
  intro as
  induction as with
  | nil => intro x y h; simp at h
  | cons a as ih =>
    intro x y h
    rcases List.mem_cons.mp h with h | h
    · injection h with h1 h2
      rw [h1, h2]
    · exact ih x y h

/-- The length-plus-pointwise comparison performed by `handleValidate`
(App.tsx:279) decides list equality. -/
theorem keysMatch_iff (l1 l2 : List (List Char)) :
    (l1.length == l2.length && (l1.zip l2).all fun p => p.1 == p.2) = true ↔
      l1 = l2 := by
  induction l1 generalizing l2 with
  | nil => cases l2 <;> simp
  | cons a as ih =>
    cases l2 with
    | nil => simp
    | cons b bs =>
      simp only [List.zip_cons_cons, List.all_cons, List.length_cons,
        Bool.and_eq_true, beq_iff_eq, Nat.add_right_cancel_iff,
        List.cons.injEq]
      constructor
      · rintro ⟨hlen, hab, hall⟩
        exact ⟨hab, (ih bs).mp (by simp [hlen, hall])⟩
      · rintro ⟨hab, habs⟩
        subst hab habs
        refine ⟨rfl, rfl, ?_⟩
        simp only [List.all_eq_true]
        intro p hp
        cases p with
        | mk x y => simpa using zip_same_eq as x y hp

/-- Seeding with the table's own key sequence preserves the table. -/
theorem seed_preserve {ks : List (List Char)} {rs : List KeyResult}
    (h : ks = rs.map (·.key)) : seed ks rs = rs := by
  unfold seed
  rw [if_pos]
  exact (keysMatch_iff ks (rs.map (·.key))).mpr h

/-- Seeding with a different key sequence rebuilds the table with fresh
pending entries. -/
theorem seed_rebuild {ks : List (List Char)} {rs : List KeyResult}
    (h : ks ≠ rs.map (·.key)) :
    seed ks rs = ks.map fun k =>
      { key := k, status := .pending, models := [], errorMsg := none } := by
  unfold seed
  rw [if_neg]
  intro hmatch
  exact h ((keysMatch_iff ks (rs.map (·.key))).mp hmatch)

/-- Whether an entry is (re-)queued at run start (App.tsx:294). -/
def isQueueable (r : KeyResult) : Bool :=
  decide (r.status = VStatus.pending) || decide (r.status = VStatus.error)

theorem buildQueue_eq (rs : List KeyResult) :
    buildQueue rs = ((rs.enum.filter fun p => isQueueable p.2).map Prod.fst) :=
  rfl

theorem mem_map_fst_filter_enumFrom (rs : List KeyResult) :
    ∀ (n i : Nat),
      (i ∈ ((List.enumFrom n rs).filter fun p => isQueueable p.2).map Prod.fst ↔
        n ≤ i ∧ ∃ r, rs[i - n]? = some r ∧ isQueueable r = true) := by
  induction rs with
  | nil => intro n i; simp
  | cons r rs ih =>
    intro n i
    have hcons :
        List.enumFrom n (r :: rs) = (n, r) :: List.enumFrom (n + 1) rs := rfl
    rw [hcons, List.filter_cons]
    by_cases hq : isQueueable r
    · simp only [hq, if_pos, List.map_cons, List.mem_cons, ih (n + 1) i]
      constructor
      · rintro (rfl | ⟨hni, s, hs, hqs⟩)
        · exact ⟨le_refl i, r, by simp, hq⟩
        · refine ⟨by omega, s, ?_, hqs⟩
          have : i - n = (i - (n + 1)) + 1 := by omega
          rw [this]
          simpa using hs
      · rintro ⟨hni, s, hs, hqs⟩
        rcases Nat.eq_or_lt_of_le hni with rfl | hlt
        · left
          rfl
        · right
          refine ⟨by omega, s, ?_, hqs⟩
          have : i - n = (i - (n + 1)) + 1 := by omega
          rw [this] at hs
          simpa using hs
    · simp only [hq, if_neg, Bool.false_eq_true, not_false_iff, ih (n + 1) i]
      constructor
      · rintro ⟨hni, s, hs, hqs⟩
        refine ⟨by omega, s, ?_, hqs⟩
        have : i - n = (i - (n + 1)) + 1 := by omega
        rw [this]
        simpa using hs
      · rintro ⟨hni, s, hs, hqs⟩
        rcases Nat.eq_or_lt_of_le hni with rfl | hlt
        · simp only [Nat.sub_self] at hs
          simp at hs
          rw [← hs] at hqs
          exact absurd hqs hq
        · refine ⟨by omega, s, ?_, hqs⟩
          have : i - n = (i - (n + 1)) + 1 := by omega
          rw [this] at hs
          simpa using hs

/-- The queue holds exactly the indices of `pending`/`error` entries. -/
theorem mem_buildQueue (rs : List KeyResult) (i : Nat) :
    i ∈ buildQueue rs ↔
      ∃ r, rs[i]? = some r ∧
        (r.status = VStatus.pending ∨ r.status = VStatus.error) := by
  rw [buildQueue_eq]
  have h := mem_map_fst_filter_enumFrom rs 0 i
  rw [show List.enumFrom 0 rs = rs.enum from rfl] at h
  simp only [Nat.sub_zero, Nat.zero_le, true_and] at h
  rw [h]
  constructor
  · rintro ⟨r, hr, hq⟩
    exact ⟨r, hr, by simpa [isQueueable] using hq⟩
  · rintro ⟨r, hr, hq⟩
    exact ⟨r, hr, by simpa [isQueueable] using hq⟩

theorem sorted_map_fst_filter_enumFrom (rs : List KeyResult) :
    ∀ n : Nat,
      List.Sorted (· < ·)
        (((List.enumFrom n rs).filter fun p => isQueueable p.2).map Prod.fst) := by
  induction rs with
  | nil => intro n; simp
  | cons r rs ih =>
    intro n
    have hcons :
        List.enumFrom n (r :: rs) = (n, r) :: List.enumFrom (n + 1) rs := rfl
    rw [hcons, List.filter_cons]
    by_cases hq : isQueueable r
    · simp only [hq, if_pos, List.map_cons]
      rw [List.sorted_cons]
      refine ⟨?_, ih (n + 1)⟩
      intro b hb
      have := (mem_map_fst_filter_enumFrom rs (n + 1) b).mp hb
      omega
    · simp only [hq, if_neg, Bool.false_eq_true, not_false_iff]
      exact ih (n + 1)

/-- The queue is in strictly ascending table-index order. -/
theorem sorted_buildQueue (rs : List KeyResult) :
    List.Sorted (· < ·) (buildQueue rs) := by
  rw [buildQueue_eq]
  exact sorted_map_fst_filter_enumFrom rs 0

theorem nodup_buildQueue (rs : List KeyResult) : (buildQueue rs).Nodup :=
  (sorted_buildQueue rs).imp fun h => Nat.ne_of_lt h

/-! ## The run invariant

`RunInv S0 S` collects the safety facts relating any reachable state `S` of a
run to the state `S0` the run started from: the table and worker pool keep
their sizes; the queue is only ever popped from the front; entries outside
the initial queue — and entries still queued — are untouched; every
`validating` entry is owned by exactly one in-flight worker; an in-flight
worker's index was dequeued from the initial queue; and an in-flight
worker's entry is `validating` (or `pending` after a stop revert). -/

structure RunInv (S0 S : System) : Prop where
  len_eq : S.results.length = S0.results.length
  wlen_eq : S.workers.length = S0.workers.length
  queue_suffix : S.queue <:+ S0.queue
  frame : ∀ i : Nat, i ∉ S0.queue → S.results[i]? = S0.results[i]?
  queued_untouched : ∀ i ∈ S.queue, S.results[i]? = S0.results[i]?
  validating_inflight : ∀ (i : Nat) (r : KeyResult), S.results[i]? = some r →
    r.status = VStatus.validating → WorkerState.inFlight i ∈ S.workers
  inflight_dequeued : ∀ (w i : Nat),
    S.workers[w]? = some (WorkerState.inFlight i) →
    i ∈ S0.queue ∧ i ∉ S.queue
  inflight_uniq : ∀ (w w' i : Nat),
    S.workers[w]? = some (WorkerState.inFlight i) →
    S.workers[w']? = some (WorkerState.inFlight i) → w = w'
  inflight_status : ∀ (w i : Nat),
    S.workers[w]? = some (WorkerState.inFlight i) →
    ∃ r, S.results[i]? = some r ∧
      (r.status = VStatus.validating ∨ r.status = VStatus.pending)

theorem mem_of_get? {α : Type} {l : List α} {i : Nat} {a : α}
    (h : l[i]? = some a) : a ∈ l :=
  List.mem_iff_getElem?.mpr ⟨i, h⟩

theorem inv_init {S0 : System} (h : GoodInit S0) : RunInv S0 S0 where
  len_eq := rfl
  wlen_eq := rfl
  queue_suffix := List.suffix_refl _
  frame := fun _ _ => rfl
  queued_untouched := fun _ _ => rfl
  validating_inflight := fun i r hr hv =>
    absurd hv (h.no_validating r (mem_of_get? hr))
  inflight_dequeued := fun w i hw => by
    have := h.workers_loopTop _ (mem_of_get? hw)
    exact absurd this (by simp)
  inflight_uniq := fun w w' i hw _ => by
    have := h.workers_loopTop _ (mem_of_get? hw)
    exact absurd this (by simp)
  inflight_status := fun w i hw => by
    have := h.workers_loopTop _ (mem_of_get? hw)
    exact absurd this (by simp)

theorem nodup_queue_of_goodInit {S0 : System} (h : GoodInit S0) :
    S0.queue.Nodup := by
  rw [h.queue_eq]
  exact nodup_buildQueue S0.results

/-- Preservation for the completion of a network call, factored over both
branches of `applyFetch`: the entry at the owned index is rewritten to some
non-`validating` status and the owning worker leaves the in-flight state. -/
theorem inv_fetch_aux {S0 S : System} (hinv : RunInv S0 S) {w i : Nat}
    (hko : S.workers[w]? = some (.inFlight i))
    (g : KeyResult → KeyResult) (hg : ∀ r, (g r).status ≠ VStatus.validating)
    (x : WorkerState) (hx : ∀ j, x ≠ WorkerState.inFlight j) :
    RunInv S0
      { S with results := updateAt i g S.results, workers := S.workers.set w x } where
  len_eq := (length_updateAt g S.results i).trans hinv.len_eq
  wlen_eq := by simpa using hinv.wlen_eq
  queue_suffix := hinv.queue_suffix
  frame := by
    intro j hj
    have hne : j ≠ i := by
      intro h
      exact hj (h ▸ (hinv.inflight_dequeued w i hko).1)
    simpa [getElem?_updateAt_ne g S.results i j hne] using hinv.frame j hj
  queued_untouched := by
    intro j hj
    have hne : j ≠ i := by
      intro h
      exact (hinv.inflight_dequeued w i hko).2 (h ▸ hj)
    simpa [getElem?_updateAt_ne g S.results i j hne] using
      hinv.queued_untouched j hj
  validating_inflight := by
    intro j r hr hv
    rcases eq_or_ne j i with rfl | hne
    · rw [getElem?_updateAt_self] at hr
      rcases Option.map_eq_some'.mp hr with ⟨r0, _, rfl⟩
      exact absurd hv (hg r0)
    · rw [getElem?_updateAt_ne g S.results i j hne] at hr
      have hmem := hinv.validating_inflight j r hr hv
      refine mem_set_of_ne hmem hko ?_ x
      intro h
      exact hne (WorkerState.inFlight.inj h)
  inflight_dequeued := by
    intro w' i' h
    rcases eq_or_ne w' w with rfl | hne
    · rw [List.getElem?_set_eq_of_lt x (List.getElem?_eq_some.mp hko).1] at h
      injection h with h
      exact absurd h (hx i')
    · rw [List.getElem?_set_ne (Ne.symm hne)] at h
      exact hinv.inflight_dequeued w' i' h
  inflight_uniq := by
    intro w1 w2 i' h1 h2
    rcases eq_or_ne w1 w with rfl | hne1
    · rw [List.getElem?_set_eq_of_lt x (List.getElem?_eq_some.mp hko).1] at h1
      injection h1 with h1
      exact absurd h1 (hx i')
    · rcases eq_or_ne w2 w with rfl | hne2
      · rw [List.getElem?_set_eq_of_lt x (List.getElem?_eq_some.mp hko).1] at h2
        injection h2 with h2
        exact absurd h2 (hx i')
      · rw [List.getElem?_set_ne (Ne.symm hne1)] at h1
        rw [List.getElem?_set_ne (Ne.symm hne2)] at h2
        exact hinv.inflight_uniq w1 w2 i' h1 h2
  inflight_status := by
    intro w' i' h
    rcases eq_or_ne w' w with rfl | hne
    · rw [List.getElem?_set_eq_of_lt x (List.getElem?_eq_some.mp hko).1] at h
      injection h with h
      exact absurd h (hx i')
    · rw [List.getElem?_set_ne (Ne.symm hne)] at h
      obtain ⟨r0, hr0, hst⟩ := hinv.inflight_status w' i' h
      have hii : i' ≠ i := by
        intro hii
        subst hii
        exact hne (hinv.inflight_uniq w' w i' h hko)
      exact ⟨r0, by rw [getElem?_updateAt_ne g S.results i i' hii]; exact hr0, hst⟩

theorem inv_step {S0 S S' : System} {l : Label} (hg0 : GoodInit S0)
    (hinv : RunInv S0 S) (hstep : Step S l S') : RunInv S0 S' := by
  cases hstep with
  | pop hrun hw hqe =>
    rename_i w i q
    have hiq : i ∈ S.queue := by rw [hqe]; exact List.mem_cons_self i q
    have hiS0 : i ∈ S0.queue := hinv.queue_suffix.subset hiq
    have hqsuf : q <:+ S0.queue :=
      (List.suffix_cons i q).trans (hqe ▸ hinv.queue_suffix)
    have hnodup : (i :: q).Nodup :=
      ((hqe ▸ hinv.queue_suffix).sublist).nodup (nodup_queue_of_goodInit hg0)
    have hinq : i ∉ q := (List.nodup_cons.mp hnodup).1
    -- the queued entry still carries its seed-time pending/error status
    have hentry : ∃ r0, S.results[i]? = some r0 ∧
        (r0.status = VStatus.pending ∨ r0.status = VStatus.error) := by
      have h1 : S.results[i]? = S0.results[i]? := hinv.queued_untouched i hiq
      have h2 := (mem_buildQueue S0.results i).mp (hg0.queue_eq ▸ hiS0)
      obtain ⟨r0, hr0, hst⟩ := h2
      exact ⟨r0, h1.trans hr0, hst⟩
    obtain ⟨r0, hr0, hst0⟩ := hentry
    constructor
    · exact (length_updateAt _ S.results i).trans hinv.len_eq
    · simpa using hinv.wlen_eq
    · exact hqsuf
    · intro j hj
      have hne : j ≠ i := fun h => hj (h ▸ hiS0)
      simpa [getElem?_updateAt_ne _ S.results i j hne] using hinv.frame j hj
    · intro j hj
      have hjq : j ∈ S.queue := hqe ▸ List.mem_cons_of_mem i hj
      have hne : j ≠ i := fun h => hinq (h ▸ hj)
      simpa [getElem?_updateAt_ne _ S.results i j hne] using
        hinv.queued_untouched j hjq
    · intro j r hr hv
      rcases eq_or_ne j i with rfl | hne
      · exact mem_set_self hw (.inFlight j)
      · rw [getElem?_updateAt_ne _ S.results i j hne] at hr
        have hmem := hinv.validating_inflight j r hr hv
        exact mem_set_of_ne hmem hw (by simp) _
    · intro w' i' h
      rcases eq_or_ne w' w with rfl | hne
      · rw [List.getElem?_set_eq_of_lt _ (List.getElem?_eq_some.mp hw).1] at h
        injection h with h
        rw [← WorkerState.inFlight.inj h]
        exact ⟨hiS0, hinq⟩
      · rw [List.getElem?_set_ne (Ne.symm hne)] at h
        obtain ⟨h1, h2⟩ := hinv.inflight_dequeued w' i' h
        exact ⟨h1, fun hmem => h2 (hqe ▸ List.mem_cons_of_mem i hmem)⟩
    · intro w1 w2 i' h1 h2
      by_cases hw1 : w1 = w <;> by_cases hw2 : w2 = w
      · rw [hw1, hw2]
      · subst hw1
        rw [List.getElem?_set_eq_of_lt _ (List.getElem?_eq_some.mp hw).1] at h1
        injection h1 with h1
        rw [List.getElem?_set_ne (Ne.symm hw2)] at h2
        rw [← WorkerState.inFlight.inj h1] at h2
        exact absurd hiq (hinv.inflight_dequeued w2 i h2).2
      · subst hw2
        rw [List.getElem?_set_eq_of_lt _ (List.getElem?_eq_some.mp hw).1] at h2
        injection h2 with h2
        rw [List.getElem?_set_ne (Ne.symm hw1)] at h1
        rw [← WorkerState.inFlight.inj h2] at h1
        exact absurd hiq (hinv.inflight_dequeued w1 i h1).2
      · rw [List.getElem?_set_ne (Ne.symm hw1)] at h1
        rw [List.getElem?_set_ne (Ne.symm hw2)] at h2
        exact hinv.inflight_uniq w1 w2 i' h1 h2
    · intro w' i' h
      rcases eq_or_ne w' w with rfl | hne
      · rw [List.getElem?_set_eq_of_lt _ (List.getElem?_eq_some.mp hw).1] at h
        injection h with h
        rw [← WorkerState.inFlight.inj h]
        refine ⟨{ r0 with status := .validating }, ?_, Or.inl rfl⟩
        rw [getElem?_updateAt_self, hr0]
        rfl
      · rw [List.getElem?_set_ne (Ne.symm hne)] at h
        obtain ⟨r1, hr1, hst1⟩ := hinv.inflight_status w' i' h
        have hii : i' ≠ i := by
          intro hii
          subst hii
          exact (hinv.inflight_dequeued w' i' h).2 hiq
        exact ⟨r1, by rw [getElem?_updateAt_ne _ S.results i i' hii]; exact hr1,
          hst1⟩
  | exitStopped hrun hw =>
    rename_i w
    constructor
    · exact hinv.len_eq
    · simpa using hinv.wlen_eq
    · exact hinv.queue_suffix
    · exact hinv.frame
    · exact hinv.queued_untouched
    · intro j r hr hv
      exact mem_set_of_ne (hinv.validating_inflight j r hr hv) hw (by simp) _
    · intro w' i' h
      rcases eq_or_ne w' w with rfl | hne
      · rw [List.getElem?_set_eq_of_lt _ (List.getElem?_eq_some.mp hw).1] at h
        exact absurd h (by simp)
      · rw [List.getElem?_set_ne (Ne.symm hne)] at h
        exact hinv.inflight_dequeued w' i' h
    · intro w1 w2 i' h1 h2
      rcases eq_or_ne w1 w with rfl | hne1
      · rw [List.getElem?_set_eq_of_lt _ (List.getElem?_eq_some.mp hw).1] at h1
        exact absurd h1 (by simp)
      · rcases eq_or_ne w2 w with rfl | hne2
        · rw [List.getElem?_set_eq_of_lt _ (List.getElem?_eq_some.mp hw).1] at h2
          exact absurd h2 (by simp)
        · rw [List.getElem?_set_ne (Ne.symm hne1)] at h1
          rw [List.getElem?_set_ne (Ne.symm hne2)] at h2
          exact hinv.inflight_uniq w1 w2 i' h1 h2
    · intro w' i' h
      rcases eq_or_ne w' w with rfl | hne
      · rw [List.getElem?_set_eq_of_lt _ (List.getElem?_eq_some.mp hw).1] at h
        exact absurd h (by simp)
      · rw [List.getElem?_set_ne (Ne.symm hne)] at h
        exact hinv.inflight_status w' i' h
  | exitEmpty hq hw =>
    rename_i w
    constructor
    · exact hinv.len_eq
    · simpa using hinv.wlen_eq
    · exact hinv.queue_suffix
    · exact hinv.frame
    · exact hinv.queued_untouched
    · intro j r hr hv
      exact mem_set_of_ne (hinv.validating_inflight j r hr hv) hw (by simp) _
    · intro w' i' h
      rcases eq_or_ne w' w with rfl | hne
      · rw [List.getElem?_set_eq_of_lt _ (List.getElem?_eq_some.mp hw).1] at h
        exact absurd h (by simp)
      · rw [List.getElem?_set_ne (Ne.symm hne)] at h
        exact hinv.inflight_dequeued w' i' h
    · intro w1 w2 i' h1 h2
      rcases eq_or_ne w1 w with rfl | hne1
      · rw [List.getElem?_set_eq_of_lt _ (List.getElem?_eq_some.mp hw).1] at h1
        exact absurd h1 (by simp)
      · rcases eq_or_ne w2 w with rfl | hne2
        · rw [List.getElem?_set_eq_of_lt _ (List.getElem?_eq_some.mp hw).1] at h2
          exact absurd h2 (by simp)
        · rw [List.getElem?_set_ne (Ne.symm hne1)] at h1
          rw [List.getElem?_set_ne (Ne.symm hne2)] at h2
          exact hinv.inflight_uniq w1 w2 i' h1 h2
    · intro w' i' h
      rcases eq_or_ne w' w with rfl | hne
      · rw [List.getElem?_set_eq_of_lt _ (List.getElem?_eq_some.mp hw).1] at h
        exact absurd h (by simp)
      · rw [List.getElem?_set_ne (Ne.symm hne)] at h
        exact hinv.inflight_status w' i' h
  | fetchDone hko =>
    rename_i w i resp
    unfold applyFetch
    by_cases hstopped : S.runState = RunState.stopped
    · rw [if_pos hstopped]
      exact inv_fetch_aux hinv hko _ (fun r => by simp) .done (fun j => by simp)
    · rw [if_neg hstopped]
      cases resp with
      | ok ids =>
        exact inv_fetch_aux hinv hko _ (fun r => by simp) .loopTop
          (fun j => by simp)
      | httpError code bodyMsg =>
        exact inv_fetch_aux hinv hko _ (fun r => by simp) .loopTop
          (fun j => by simp)
      | netFail msg =>
        exact inv_fetch_aux hinv hko _ (fun r => by simp) .loopTop
          (fun j => by simp)
  | pauseRun hrun =>
    exact ⟨hinv.len_eq, hinv.wlen_eq, hinv.queue_suffix, hinv.frame,
      hinv.queued_untouched, hinv.validating_inflight, hinv.inflight_dequeued,
      hinv.inflight_uniq, hinv.inflight_status⟩
  | resumeRun hrun =>
    exact ⟨hinv.len_eq, hinv.wlen_eq, hinv.queue_suffix, hinv.frame,
      hinv.queued_untouched, hinv.validating_inflight, hinv.inflight_dequeued,
      hinv.inflight_uniq, hinv.inflight_status⟩
  | stopRun =>
    have hmap : ∀ j : Nat,
        (S.results.map fun r =>
          if r.status = VStatus.validating then { r with status := .pending }
          else r)[j]? =
        (S.results[j]?).map fun r =>
          if r.status = VStatus.validating then { r with status := .pending }
          else r := by
      intro j
      exact List.getElem?_map _ S.results j
    constructor
    · simpa using hinv.len_eq
    · exact hinv.wlen_eq
    · exact hinv.queue_suffix
    · intro j hj
      rw [hmap j, hinv.frame j hj]
      rcases h0 : S0.results[j]? with _ | r
      · rfl
      · have hnv := hg0.no_validating r (mem_of_get? h0)
        simp [hnv]
    · intro j hj
      have hjq : j ∈ S.queue := hj
      rw [hmap j, hinv.queued_untouched j hjq]
      have h0eq : S.results[j]? = S0.results[j]? := hinv.queued_untouched j hjq
      rcases h0 : S0.results[j]? with _ | r
      · rfl
      · have hnv := hg0.no_validating r (mem_of_get? h0)
        simp [hnv]
    · intro j r hr hv
      rw [hmap j] at hr
      rcases Option.map_eq_some'.mp hr with ⟨r0, _, rfl⟩
      by_cases h0 : r0.status = VStatus.validating
      · rw [if_pos h0] at hv
        exact absurd hv (by simp)
      · rw [if_neg h0] at hv
        exact absurd hv h0
    · exact hinv.inflight_dequeued
    · exact hinv.inflight_uniq
    · intro w' i' h
      obtain ⟨r0, hr0, hst⟩ := hinv.inflight_status w' i' h
      rw [show
          (({ S with
              results := S.results.map fun r =>
                if r.status = VStatus.validating then { r with status := .pending }
                else r,
              runState := RunState.stopped } : System)).results =
            S.results.map fun r =>
              if r.status = VStatus.validating then { r with status := .pending }
              else r
        from rfl]
      refine ⟨if r0.status = VStatus.validating then { r0 with status := .pending }
        else r0, ?_, ?_⟩
      · rw [List.getElem?_map _ S.results i', hr0]
        rfl
      · by_cases h0 : r0.status = VStatus.validating
        · simp [h0]
        · rcases hst with hst | hst
          · exact absurd hst h0
          · simp [h0, hst]
  | finishRun hdone hns =>
    exact ⟨hinv.len_eq, hinv.wlen_eq, hinv.queue_suffix, hinv.frame,
      hinv.queued_untouched, hinv.validating_inflight, hinv.inflight_dequeued,
      hinv.inflight_uniq, hinv.inflight_status⟩

theorem inv_reach {S0 S : System} (hg0 : GoodInit S0) (hreach : Reach S0 S) :
    RunInv S0 S := by
  induction hreach with
  | refl => exact inv_init hg0
  | tail hr hstep ih => exact inv_step hg0 ih hstep

/-! ## Counting validating entries -/

theorem filter_length_eq_range (p : KeyResult → Bool) :
    ∀ rs : List KeyResult,
      (rs.filter p).length =
        ((List.range rs.length).filter fun i =>
          match rs[i]? with
          | some r => p r
          | none => false).length := by
  intro rs
  induction rs with
  | nil => simp
  | cons r rs ih =>
    rw [List.length_cons, List.range_succ_eq_map, List.filter_cons,
      List.filter_cons, List.filter_map]
    have hcomp :
        ((fun i =>
          match (r :: rs)[i]? with
          | some s => p s
          | none => false) ∘ Nat.succ) = fun i =>
          match rs[i]? with
          | some s => p s
          | none => false := by
      funext i
      simp
    rw [hcomp]
    by_cases hp : p r <;> simp [hp, ih]

/-- If every `validating` index is owned by an in-flight worker then the
number of `validating` entries is bounded by the worker count: distinct
indices yield distinct `inFlight` markers inside the worker list. -/
theorem countValidating_le_workers (rs : List KeyResult)
    (ws : List WorkerState)
    (h : ∀ (i : Nat) (r : KeyResult), rs[i]? = some r →
      r.status = VStatus.validating → WorkerState.inFlight i ∈ ws) :
    countValidating rs ≤ ws.length := by
  classical
  have hcount : countValidating rs =
      ((List.range rs.length).filter fun i =>
        match rs[i]? with
        | some r => decide (r.status = VStatus.validating)
        | none => false).length :=
    filter_length_eq_range _ rs
  have hnodup :
      (((List.range rs.length).filter fun i =>
        match rs[i]? with
        | some r => decide (r.status = VStatus.validating)
        | none => false).map WorkerState.inFlight).Nodup := by
    refine List.Nodup.map ?_ ((List.nodup_range rs.length).filter _)
    intro a b hab
    exact WorkerState.inFlight.inj hab
  have hsubset :
      ((List.range rs.length).filter fun i =>
        match rs[i]? with
        | some r => decide (r.status = VStatus.validating)
        | none => false).map WorkerState.inFlight ⊆ ws := by
    intro x hx
    obtain ⟨i, hi, rfl⟩ := List.mem_map.mp hx
    have hiq2 : (match rs[i]? with
        | some r => decide (r.status = VStatus.validating)
        | none => false) = true :=
      (List.mem_filter.mp hi).2
    rcases hrs : rs[i]? with _ | r
    · rw [hrs] at hiq2
      simp at hiq2
    · rw [hrs] at hiq2
      simp only [decide_eq_true_eq] at hiq2
      exact h i r hrs hiq2
  have hle := (List.Nodup.subperm hnodup hsubset).length_le
  rw [List.length_map] at hle
  rw [hcount]
  exact hle

/-! ## The state produced by `handleValidateStart` -/

theorem handleValidateStart_of_matches {input : List Char} {c : Nat}
    {rs : List KeyResult} {st : RunState}
    (hne : uniqueKeysOfInput input ≠ []) :
    handleValidateStart input c rs st =
      { results := seed (uniqueKeysOfInput input) rs,
        runState := .running,
        queue := buildQueue (seed (uniqueKeysOfInput input) rs),
        workers := List.replicate
          (min (clampConcurrency c)
            (buildQueue (seed (uniqueKeysOfInput input) rs)).length)
          .loopTop } := by
  unfold handleValidateStart
  rw [if_neg (by simpa [List.isEmpty_iff] using hne)]

theorem seed_no_validating {ks : List (List Char)} {rs : List KeyResult}
    (hrs : ∀ r ∈ rs, r.status ≠ VStatus.validating) :
    ∀ r ∈ seed ks rs, r.status ≠ VStatus.validating := by
  by_cases h : ks = rs.map (·.key)
  · rw [seed_preserve h]
    exact hrs
  · rw [seed_rebuild h]
    intro r hr
    obtain ⟨k, _, rfl⟩ := List.mem_map.mp hr
    simp

theorem wfModels_seed {ks : List (List Char)} {rs : List KeyResult}
    (h : WfModels rs) : WfModels (seed ks rs) := by
  by_cases hk : ks = rs.map (·.key)
  · rw [seed_preserve hk]
    exact h
  · rw [seed_rebuild hk]
    intro i r hi hst
    rw [List.getElem?_map] at hi
    rcases Option.map_eq_some'.mp hi with ⟨k, _, rfl⟩
    rfl

theorem goodInit_start {input : List Char} {c : Nat} {rs : List KeyResult}
    {st : RunState} (hrs : ∀ r ∈ rs, r.status ≠ VStatus.validating)
    (hne : uniqueKeysOfInput input ≠ []) :
    GoodInit (handleValidateStart input c rs st) := by
  rw [handleValidateStart_of_matches hne]
  constructor
  · rfl
  · intro w hw
    exact List.eq_of_mem_replicate hw
  · exact seed_no_validating hrs

/-! ## Preservation of `WfModels` along a run -/

theorem wf_step {S0 S S' : System} {l : Label} (hg0 : GoodInit S0)
    (hinv : RunInv S0 S) (hwf0 : WfModels S0.results)
    (hwf : WfModels S.results) (hstep : Step S l S') :
    WfModels S'.results := by
  cases hstep with
  | pop hrun hw hqe =>
    rename_i w i q
    intro j r hj hst
    by_cases hji : j = i
    · subst hji
      rw [show
          (({ S with
              results := updateAt j
                (fun r => { r with status := .validating }) S.results,
              queue := q,
              workers := S.workers.set w (.inFlight j) } : System)).results =
            updateAt j (fun r => { r with status := .validating }) S.results
        from rfl, getElem?_updateAt_self] at hj
      rcases Option.map_eq_some'.mp hj with ⟨r0, hr0, rfl⟩
      have hiq : j ∈ S.queue := by
        rw [hqe]
        exact List.mem_cons_self j q
      have heq : S.results[j]? = S0.results[j]? := hinv.queued_untouched j hiq
      have hiS0 : j ∈ S0.queue := hinv.queue_suffix.subset hiq
      obtain ⟨r1, hr1, hst1⟩ :=
        (mem_buildQueue S0.results j).mp (hg0.queue_eq ▸ hiS0)
      rw [heq, hr1] at hr0
      injection hr0 with hr0
      have hm : r1.models = [] := hwf0 j r1 hr1 (hst1.imp id Or.inl)
      rw [hr0] at hm
      exact hm
    · rw [show
          (({ S with
              results := updateAt i
                (fun r => { r with status := .validating }) S.results,
              queue := q,
              workers := S.workers.set w (.inFlight i) } : System)).results =
            updateAt i (fun r => { r with status := .validating }) S.results
        from rfl, getElem?_updateAt_ne _ S.results i j hji] at hj
      exact hwf j r hj hst
  | exitStopped hrun hw => exact hwf
  | exitEmpty hq hw => exact hwf
  | fetchDone hko =>
    rename_i w i resp
    have howned := hinv.inflight_status w i hko
    obtain ⟨r1, hr1, hst1⟩ := howned
    have hr1models : r1.models = [] :=
      hwf i r1 hr1 (hst1.elim (fun h => Or.inr (Or.inr h)) Or.inl)
    by_cases hstop : S.runState = RunState.stopped
    · simp only [applyFetch, if_pos hstop]
      intro j r hj hst
      by_cases hji : j = i
      · subst hji
        rw [getElem?_updateAt_self] at hj
        rcases Option.map_eq_some'.mp hj with ⟨r0, hr0, rfl⟩
        rw [hr1] at hr0
        injection hr0 with hr0
        subst hr0
        exact hr1models
      · rw [getElem?_updateAt_ne _ S.results i j hji] at hj
        exact hwf j r hj hst
    · simp only [applyFetch, if_neg hstop]
      cases resp with
      | ok ids =>
        intro j r hj hst
        by_cases hji : j = i
        · subst hji
          rw [getElem?_updateAt_self] at hj
          rcases Option.map_eq_some'.mp hj with ⟨r0, hr0, rfl⟩
          simp at hst
        · rw [getElem?_updateAt_ne _ S.results i j hji] at hj
          exact hwf j r hj hst
      | httpError code bodyMsg =>
        intro j r hj hst
        by_cases hji : j = i
        · subst hji
          rw [getElem?_updateAt_self] at hj
          rcases Option.map_eq_some'.mp hj with ⟨r0, hr0, rfl⟩
          simp at hst
        · rw [getElem?_updateAt_ne _ S.results i j hji] at hj
          exact hwf j r hj hst
      | netFail msg =>
        intro j r hj hst
        by_cases hji : j = i
        · subst hji
          rw [getElem?_updateAt_self] at hj
          rcases Option.map_eq_some'.mp hj with ⟨r0, hr0, rfl⟩
          rw [hr1] at hr0
          injection hr0 with hr0
          subst hr0
          exact hr1models
        · rw [getElem?_updateAt_ne _ S.results i j hji] at hj
          exact hwf j r hj hst
  | pauseRun hrun => exact hwf
  | resumeRun hrun => exact hwf
  | stopRun =>
    intro j r hj hst
    rw [show
        (({ S with
            results := S.results.map fun r =>
              if r.status = VStatus.validating then { r with status := .pending }
              else r,
            runState := RunState.stopped } : System)).results =
          S.results.map fun r =>
            if r.status = VStatus.validating then { r with status := .pending }
            else r
      from rfl, List.getElem?_map] at hj
    rcases Option.map_eq_some'.mp hj with ⟨r0, hr0, rfl⟩
    by_cases h0 : r0.status = VStatus.validating
    · rw [if_pos h0]
      exact hwf j r0 hr0 (Or.inr (Or.inr h0))
    · rw [if_neg h0]
      rw [if_neg h0] at hst
      exact hwf j r0 hr0 hst
  | finishRun hdone hns => exact hwf

theorem wf_reach {S0 S : System} (hg0 : GoodInit S0)
    (hwf0 : WfModels S0.results) (hreach : Reach S0 S) :
    WfModels S.results := by
  induction hreach with
  | refl => exact hwf0
  | tail hr hstep ih => exact wf_step hg0 (inv_reach hg0 hr) hwf0 ih hstep

/-! ## The lexicographic order used by `models.sort()` -/

instance : IsTotal (List Char) LexLeP where
  total := by
    intro a
    induction a with
    | nil => intro b; left; rfl
    | cons x xs ih =>
      intro b
      cases b with
      | nil => right; rfl
      | cons y ys =>
        by_cases hxy : x < y
        · left
          simp [LexLeP, lexLe, hxy]
        · by_cases hyx : y < x
          · right
            simp [LexLeP, lexLe, hyx, hxy]
          · rcases ih ys with h | h
            · left
              simpa [LexLeP, lexLe, hxy, hyx] using h
            · right
              simpa [LexLeP, lexLe, hxy, hyx] using h

instance : IsTrans (List Char) LexLeP where
  trans := by
    intro a
    induction a with
    | nil => intro b c _ _; rfl
    | cons x xs ih =>
      intro b c hab hbc
      cases b with
      | nil => exact absurd hab (by simp [LexLeP, lexLe])
      | cons y ys =>
        cases c with
        | nil => exact absurd hbc (by simp [LexLeP, lexLe])
        | cons z zs =>
          by_cases hxy : x < y <;> by_cases hyz : y < z
          · have hxz : x < z := lt_trans hxy hyz
            simp [LexLeP, lexLe, hxz]
          · by_cases hzy : z < y
            · exact absurd hbc (by simp [LexLeP, lexLe, hyz, hzy])
            · have hyz_eq : y = z :=
                le_antisymm (le_of_not_lt hzy) (le_of_not_lt hyz)
              subst hyz_eq
              simp [LexLeP, lexLe, hxy]
          · by_cases hyx : y < x
            · exact absurd hab (by simp [LexLeP, lexLe, hxy, hyx])
            · have hxy_eq : x = y :=
                le_antisymm (le_of_not_lt hyx) (le_of_not_lt hxy)
              subst hxy_eq
              simp [LexLeP, lexLe, hyz]
          · by_cases hyx : y < x
            · exact absurd hab (by simp [LexLeP, lexLe, hxy, hyx])
            · by_cases hzy : z < y
              · exact absurd hbc (by simp [LexLeP, lexLe, hyz, hzy])
              · have hxy_eq : x = y :=
                  le_antisymm (le_of_not_lt hyx) (le_of_not_lt hxy)
                have hyz_eq : y = z :=
                  le_antisymm (le_of_not_lt hzy) (le_of_not_lt hyz)
                subst hxy_eq
                subst hyz_eq
                have hab2 : lexLe xs ys = true := by
                  simpa [LexLeP, lexLe, hxy] using hab
                have hbc2 : lexLe ys zs = true := by
                  simpa [LexLeP, lexLe, hxy] using hbc
                have := ih ys zs hab2 hbc2
                simpa [LexLeP, lexLe, hxy] using this

theorem sortModels_sorted (ms : List (List Char)) :
    List.Sorted LexLeP (sortModels ms) :=
  List.sorted_insertionSort LexLeP ms

theorem mem_sortModels {ms : List (List Char)} {m : List Char} :
    m ∈ sortModels ms ↔ m ∈ ms :=
  List.mem_insertionSort LexLeP

theorem sortModels_perm (ms : List (List Char)) :
    (sortModels ms).Perm ms :=
  List.perm_insertionSort LexLeP ms

/-! ## Inputs with no key-shaped token -/

/-- When no substring of `l` has the credential token shape (the literal
`sk-` followed by at least one character of the key alphabet), the global
regex scan finds nothing. -/
theorem scanMatchesF_eq_nil (fuel : Nat) (l : List Char)
    (h : ∀ (l1 : List Char) (c : Char) (l2 : List Char), isKeyChar c →
      l ≠ l1 ++ 's' :: 'k' :: '-' :: c :: l2) :
    scanMatchesF fuel l = [] := by
  induction fuel, l using scanMatchesF.induct with
  | case1 l => cases l <;> simp [scanMatchesF]
  | case2 fuel hf => cases fuel <;> simp [scanMatchesF]
  | case3 fuel rest run hrun ih =>
    have hrun2 : (rest.takeWhile isKeyChar).isEmpty = true := hrun
    have heq : scanMatchesF (fuel + 1) ('s' :: 'k' :: '-' :: rest) =
        scanMatchesF fuel ('k' :: '-' :: rest) := by
      simp [scanMatchesF, hrun2]
    rw [heq]
    exact ih fun l1 c l2 hc hl => h ('s' :: l1) c l2 hc (by rw [hl]; rfl)
  | case4 fuel rest run hrun ih =>
    exfalso
    have hrun2 : ¬ (rest.takeWhile isKeyChar).isEmpty = true := hrun
    cases hrest : rest with
    | nil =>
      rw [hrest] at hrun2
      simp at hrun2
    | cons d rest2 =>
      by_cases hd : isKeyChar d
      · exact h [] d rest2 hd (by rw [hrest]; rfl)
      · rw [hrest] at hrun2
        simp [List.takeWhile_cons, hd] at hrun2
  | case5 fuel x cs hx ih =>
    have heq : scanMatchesF (fuel + 1) (x :: cs) = scanMatchesF fuel cs := by
      simp only [scanMatchesF]
    rw [heq]
    exact ih fun l1 c l2 hc hl => h (x :: l1) c l2 hc (by rw [hl]; rfl)

theorem scanMatches_eq_nil (l : List Char)
    (h : ∀ (l1 : List Char) (c : Char) (l2 : List Char), isKeyChar c →
      l ≠ l1 ++ 's' :: 'k' :: '-' :: c :: l2) :
    scanMatches l = [] :=
  scanMatchesF_eq_nil l.length l h

theorem wfModels_of_all (rs : List KeyResult) (h : ∀ r ∈ rs, r.models = []) :
    WfModels rs :=
  fun _ r hi _ => h r (mem_of_get? hi)

/-! ## Claims -/

/-- The spec's own boundary example: a token straddling a chunk boundary
with no newline before it inside the first chunk. -/
def straddleText : List Char := "sk-AAAABBBB\nsk-CCCC".toList

/-- C1: the claim states that for every input and every fixed-size chunking,
streaming chunked extraction returns the same token set as the
non-streaming scan of the whole text, with straddling tokens intact.  The
code refutes it: splitting `"sk-AAAABBBB\nsk-CCCC"` into 7-character chunks
makes the first chunk `"sk-AAAA"`, which contains no newline, so
`extractKeysFromText` carries no tail across the boundary and scans the
truncated token — the output loses `sk-AAAABBBB` and instead contains the
fragment `sk-AAAA`, while the non-streaming scan returns the full token. -/
theorem c1_chunked_extraction_loses_straddling_token :
    "sk-AAAABBBB".toList ∈ uniqueKeysOfInput straddleText ∧
    "sk-AAAABBBB".toList ∉ extractKeysFromText 7 straddleText ∧
    extractKeysFromText 7 straddleText =
      ["sk-AAAA".toList, "sk-CCCC".toList] ∧
    uniqueKeysOfInput straddleText =
      ["sk-AAAABBBB".toList, "sk-CCCC".toList] := by
  decide

/-- Initial table for the C2 run: one entry left in `error` state by a
previous attempt, with its transport message still attached. -/
def rsC2 : List KeyResult :=
  [{ key := "sk-alpha1".toList, status := .error, models := [],
     errorMsg := some "boom" }]

def inputC2 : List Char := "sk-alpha1".toList

def initC2 : System := handleValidateStart inputC2 1 rsC2 .idle

/-- The state after the single worker pops index 0 and marks it
`validating` (the first worker-loop step of the run from `initC2`). -/
def stateC2 : System :=
  { initC2 with
    results := updateAt 0 (fun r => { r with status := .validating })
      initC2.results,
    queue := [],
    workers := initC2.workers.set 0 (.inFlight 0) }

theorem stepC2 : Step initC2 (Label.pop 0 0) stateC2 :=
  Step.pop (by decide) (by decide) (by decide)

/-- C2 counterexample: the claim — a worker entering `Validating` clears the
entry's `models` and `errorMessage`, so neither is ever stale while the
status is `Validating` — is false on the code.  Re-validating an `error`
entry sets only the status field (App.tsx:313), so one pop step from
`initC2` reaches a state whose `validating` entry still carries
`errorMsg = some "boom"` from the previous outcome. -/
theorem c2_stale_errorMsg_counterexample :
    ¬ (∀ S : System, Reach initC2 S →
        ∀ (i : Nat) (r : KeyResult), S.results[i]? = some r →
          r.status = VStatus.validating →
          r.models = [] ∧ r.errorMsg = none) := by
  intro hclaim
  have h := hclaim stateC2 (Reach.tail Reach.refl stepC2) 0
    { key := "sk-alpha1".toList, status := .validating, models := [],
      errorMsg := some "boom" } (by decide) rfl
  exact Option.noConfusion h.2

/-- C2 (amended): the transition to `Validating` writes only the status
field — the entry's `key`, `models` and `errorMsg` keep their previous
values, so a stale `errorMessage` from a prior `Invalid`/`Error` outcome can
persist while the entry is `Validating`.  The `models` half of the claim
nevertheless holds as a run invariant: only `Pending`/`Error` entries are
ever queued and (for a well-formed starting table) such entries carry no
models, so a `Validating` entry's model list is always empty — never stale
from a prior `Valid` state. -/
theorem c2_validating_transition_amended :
    (∀ (S S' : System) (w i : Nat), Step S (Label.pop w i) S' →
      ∀ (j : Nat) (r : KeyResult), S.results[j]? = some r →
        ∃ r2, S'.results[j]? = some r2 ∧ r2.key = r.key ∧
          r2.models = r.models ∧ r2.errorMsg = r.errorMsg) ∧
    ∀ (input : List Char) (climit : Nat) (rs : List KeyResult) (st : RunState),
      (∀ r ∈ rs, r.status ≠ VStatus.validating) →
      uniqueKeysOfInput input ≠ [] →
      WfModels rs →
      ∀ S, Reach (handleValidateStart input climit rs st) S →
        ∀ (i : Nat) (r : KeyResult), S.results[i]? = some r →
          r.status = VStatus.validating → r.models = [] := by
  constructor
  · intro S S' w i hstep j r hr
    cases hstep with
    | pop hrun hw hqe =>
      by_cases hji : j = i
      · subst hji
        refine ⟨{ r with status := .validating }, ?_, rfl, rfl, rfl⟩
        show (updateAt j (fun r => { r with status := .validating })
          S.results)[j]? = _
        rw [getElem?_updateAt_self, hr]
        rfl
      · refine ⟨r, ?_, rfl, rfl, rfl⟩
        show (updateAt i (fun r => { r with status := .validating })
          S.results)[j]? = some r
        rw [getElem?_updateAt_ne _ _ i j hji]
        exact hr
  · intro input climit rs st hrs hne hwf S hS i r hr hv
    have hg0 := @goodInit_start input climit rs st hrs hne
    have hwf0 : WfModels (handleValidateStart input climit rs st).results := by
      rw [handleValidateStart_of_matches hne]
      exact wfModels_seed hwf
    exact wf_reach hg0 hwf0 hS i r hr (Or.inr (Or.inr hv))

/-- Witness for C2 (amended) on the concrete one-entry run. -/
theorem c2_validating_transition_amended_witness :
    (∃ r2, stateC2.results[0]? = some r2 ∧
      r2.key = "sk-alpha1".toList ∧ r2.models = [] ∧
      r2.errorMsg = some "boom") ∧
    ∀ (i : Nat) (r : KeyResult), stateC2.results[i]? = some r →
      r.status = VStatus.validating → r.models = [] := by
  constructor
  · exact c2_validating_transition_amended.1 initC2 stateC2 0 0 stepC2 0
      { key := "sk-alpha1".toList, status := .error, models := [],
        errorMsg := some "boom" } (by decide)
  · exact c2_validating_transition_amended.2 inputC2 1 rsC2 .idle (by decide)
      (by decide) (wfModels_of_all rsC2 (by decide)) stateC2
      (Reach.tail Reach.refl stepC2)

/-- A mid-run snapshot for C3: the run was stopped while the single
worker's call on index 0 was in flight. -/
def sC3 : System :=
  { results := [{ key := "sk-c3key".toList, status := .pending, models := [],
                  errorMsg := none }],
    runState := .stopped,
    queue := [],
    workers := [.inFlight 0] }

/-- C3: when the run state became `Stopped` while a worker's call was in
flight, the completion of that call reverts the owned entry to `Pending`,
marks the worker done (it exits its loop), changes nothing else, and the
resulting state is independent of the response — no outcome, models or
message from the response is ever recorded. -/
theorem c3_stopped_inflight_discard :
    ∀ (S S' : System) (w i : Nat) (resp : FetchResponse),
      Step S (Label.fetchDone w i resp) S' →
      S.runState = RunState.stopped →
      S'.results = updateAt i (fun r => { r with status := VStatus.pending })
        S.results ∧
      (∀ r, S.results[i]? = some r →
        S'.results[i]? = some { r with status := VStatus.pending }) ∧
      S'.workers = S.workers.set w WorkerState.done ∧
      S'.runState = S.runState ∧
      S'.queue = S.queue ∧
      ∀ (resp2 : FetchResponse) (S2 : System),
        Step S (Label.fetchDone w i resp2) S2 → S2 = S' := by
  intro S S' w i resp hstep hstop
  cases hstep with
  | fetchDone hko =>
    have happ : ∀ resp3 : FetchResponse, applyFetch S w i resp3 =
        { S with
          results := updateAt i (fun r => { r with status := VStatus.pending })
            S.results,
          workers := S.workers.set w WorkerState.done } := by
      intro resp3
      unfold applyFetch
      rw [if_pos hstop]
    refine ⟨?_, ?_, ?_, ?_, ?_, ?_⟩
    · rw [happ resp]
    · intro r hr
      rw [happ resp]
      show (updateAt i (fun r => { r with status := VStatus.pending })
        S.results)[i]? = _
      rw [getElem?_updateAt_self, hr]
      rfl
    · rw [happ resp]
    · rw [happ resp]
    · rw [happ resp]
    · intro resp2 S2 hstep2
      cases hstep2 with
      | fetchDone hko2 => rw [happ resp2, happ resp]

/-- Witness for C3 on a concrete stopped snapshot and a 401 response. -/
theorem c3_stopped_inflight_discard_witness :
    (applyFetch sC3 0 0 (FetchResponse.httpError 401 (some "bad"))).results =
      updateAt 0 (fun r => { r with status := VStatus.pending }) sC3.results ∧
    (applyFetch sC3 0 0 (FetchResponse.httpError 401 (some "bad"))).workers =
      sC3.workers.set 0 WorkerState.done ∧
    ∀ (resp2 : FetchResponse) (S2 : System),
      Step sC3 (Label.fetchDone 0 0 resp2) S2 →
        S2 = applyFetch sC3 0 0 (FetchResponse.httpError 401 (some "bad")) := by
  have h := c3_stopped_inflight_discard sC3
    (applyFetch sC3 0 0 (FetchResponse.httpError 401 (some "bad"))) 0 0
    (FetchResponse.httpError 401 (some "bad"))
    (Step.fetchDone (by decide)) rfl
  exact ⟨h.1, h.2.2.1, h.2.2.2.2.2⟩

/-- C4: a fresh run starts exactly `min(clamped concurrency, queue length)`
worker instances, and in every reachable state of the run the number of
entries simultaneously in `Validating` status never exceeds that bound. -/
theorem c4_concurrency_bound :
    ∀ (input : List Char) (climit : Nat) (rs : List KeyResult) (st : RunState),
      (∀ r ∈ rs, r.status ≠ VStatus.validating) →
      uniqueKeysOfInput input ≠ [] →
      (handleValidateStart input climit rs st).workers.length =
        min (clampConcurrency climit)
          (handleValidateStart input climit rs st).queue.length ∧
      ∀ S, Reach (handleValidateStart input climit rs st) S →
        countValidating S.results ≤
          min (clampConcurrency climit)
            (handleValidateStart input climit rs st).queue.length := by
  intro input climit rs st hrs hne
  have hg0 := @goodInit_start input climit rs st hrs hne
  have hwl : (handleValidateStart input climit rs st).workers.length =
      min (clampConcurrency climit)
        (handleValidateStart input climit rs st).queue.length := by
    rw [handleValidateStart_of_matches hne]
    simp
  refine ⟨hwl, ?_⟩
  intro S hS
  have hinv := inv_reach hg0 hS
  calc countValidating S.results
      ≤ S.workers.length :=
        countValidating_le_workers _ _ hinv.validating_inflight
    _ = (handleValidateStart input climit rs st).workers.length := hinv.wlen_eq
    _ = min (clampConcurrency climit)
          (handleValidateStart input climit rs st).queue.length := hwl

/-- Witness for C4: a fresh run over one extracted key with limit 7. -/
theorem c4_concurrency_bound_witness :
    (handleValidateStart "sk-q1".toList 7 [] .idle).workers.length =
      min (clampConcurrency 7)
        (handleValidateStart "sk-q1".toList 7 [] .idle).queue.length ∧
    countValidating (handleValidateStart "sk-q1".toList 7 [] .idle).results ≤
      min (clampConcurrency 7)
        (handleValidateStart "sk-q1".toList 7 [] .idle).queue.length := by
  have h := c4_concurrency_bound "sk-q1".toList 7 [] .idle (by simp) (by decide)
  exact ⟨h.1, h.2 _ Reach.refl⟩

/-- C5: seeding decides by order-sensitive equality of the credential
sequences — an identical sequence leaves the table untouched (all prior
outcomes preserved), while any difference rebuilds it with exactly one
fresh `Pending` entry per incoming credential, in order, with empty models
and no error message. -/
theorem c5_seed_preserve_or_rebuild :
    ∀ (ks : List (List Char)) (rs : List KeyResult),
      (ks = rs.map (·.key) → seed ks rs = rs) ∧
      (ks ≠ rs.map (·.key) →
        (seed ks rs).length = ks.length ∧
        ∀ (i : Nat) (k : List Char), ks[i]? = some k →
          (seed ks rs)[i]? =
            some { key := k, status := VStatus.pending, models := [],
                   errorMsg := none }) := by
  intro ks rs
  constructor
  · exact seed_preserve
  · intro h
    rw [seed_rebuild h]
    refine ⟨List.length_map _ _, ?_⟩
    intro i k hk
    rw [List.getElem?_map, hk]
    rfl

/-- Witness for C5: preserving an identical sequence and rebuilding on a
changed one. -/
theorem c5_seed_preserve_or_rebuild_witness :
    seed ["sk-a1".toList]
      [{ key := "sk-a1".toList, status := .valid,
         models := ["gpt-4".toList], errorMsg := none }] =
      [{ key := "sk-a1".toList, status := .valid,
         models := ["gpt-4".toList], errorMsg := none }] ∧
    (seed ["sk-b2".toList]
      [{ key := "sk-a1".toList, status := .valid,
         models := ["gpt-4".toList], errorMsg := none }])[0]? =
      some { key := "sk-b2".toList, status := VStatus.pending, models := [],
             errorMsg := none } := by
  refine ⟨(c5_seed_preserve_or_rebuild _ _).1 (by decide), ?_⟩
  exact ((c5_seed_preserve_or_rebuild _ _).2 (by decide)).2 0 _ rfl

/-- C6: at run start the queue holds exactly the table indices whose status
is `Pending` or `Error`, in strictly ascending (FIFO) table order; and
along any run, entries whose run-start status was `Valid` or `Invalid` are
never touched. -/
theorem c6_queue_exactly_pending_error_fifo :
    (∀ (rs : List KeyResult) (i : Nat),
      i ∈ buildQueue rs ↔
        ∃ r, rs[i]? = some r ∧
          (r.status = VStatus.pending ∨ r.status = VStatus.error)) ∧
    (∀ rs : List KeyResult, List.Sorted (· < ·) (buildQueue rs)) ∧
    ∀ (input : List Char) (climit : Nat) (rs : List KeyResult) (st : RunState),
      (∀ r ∈ rs, r.status ≠ VStatus.validating) →
      uniqueKeysOfInput input ≠ [] →
      ∀ S, Reach (handleValidateStart input climit rs st) S →
        ∀ (i : Nat) (r : KeyResult),
          (handleValidateStart input climit rs st).results[i]? = some r →
          (r.status = VStatus.valid ∨ r.status = VStatus.invalid) →
          S.results[i]? = some r := by
  refine ⟨mem_buildQueue, sorted_buildQueue, ?_⟩
  intro input climit rs st hrs hne S hS i r hr hstatus
  have hg0 := @goodInit_start input climit rs st hrs hne
  have hinv := inv_reach hg0 hS
  have hnotin : i ∉ (handleValidateStart input climit rs st).queue := by
    rw [hg0.queue_eq]
    intro hmem
    obtain ⟨r2, hr2, hst2⟩ := (mem_buildQueue _ i).mp hmem
    rw [hr] at hr2
    injection hr2 with hr2
    subst hr2
    rcases hstatus with h | h <;> rcases hst2 with h2 | h2 <;> rw [h] at h2 <;>
      exact VStatus.noConfusion h2
  rw [hinv.frame i hnotin]
  exact hr

/-- Witness for C6: a run seeded with the table's own key preserves a
`Valid` entry, and that entry's index is not queued while an `error`
entry's index is. -/
theorem c6_queue_exactly_pending_error_fifo_witness :
    (0 ∈ buildQueue [{ key := "sk-e9".toList, status := .error, models := [],
                       errorMsg := some "x" }]) ∧
    (handleValidateStart "sk-v1".toList 1
      [{ key := "sk-v1".toList, status := .valid,
         models := ["gpt-4o".toList], errorMsg := none }] .idle).results[0]? =
      some { key := "sk-v1".toList, status := .valid,
             models := ["gpt-4o".toList], errorMsg := none } := by
  constructor
  · exact (c6_queue_exactly_pending_error_fifo.1 _ 0).mpr
      ⟨_, rfl, Or.inr rfl⟩
  · exact c6_queue_exactly_pending_error_fifo.2.2 "sk-v1".toList 1
      [{ key := "sk-v1".toList, status := .valid,
         models := ["gpt-4o".toList], errorMsg := none }] .idle (by decide)
      (by decide) _ Reach.refl 0 _ (by decide) (Or.inl rfl)

/-- C7: the stop handler reverts every `Validating` entry to `Pending` in
one synchronous slice, and once the run has settled after a stop (state
still `stopped`, every worker exited) no entry remains `Validating`. -/
theorem c7_stop_settles_no_validating :
    (∀ (S S' : System), Step S Label.stopRun S' →
      ∀ (i : Nat) (r : KeyResult), S.results[i]? = some r →
        r.status = VStatus.validating →
        S'.results[i]? = some { r with status := VStatus.pending }) ∧
    ∀ (input : List Char) (climit : Nat) (rs : List KeyResult) (st : RunState),
      (∀ r ∈ rs, r.status ≠ VStatus.validating) →
      uniqueKeysOfInput input ≠ [] →
      ∀ S, Reach (handleValidateStart input climit rs st) S →
        S.runState = RunState.stopped →
        (∀ w ∈ S.workers, w = WorkerState.done) →
        ∀ (i : Nat) (r : KeyResult), S.results[i]? = some r →
          r.status ≠ VStatus.validating := by
  constructor
  · intro S S' hstep i r hr hv
    cases hstep with
    | stopRun =>
      show (S.results.map fun r =>
        if r.status = VStatus.validating then { r with status := .pending }
        else r)[i]? = _
      rw [List.getElem?_map, hr]
      simp [hv]
  · intro input climit rs st hrs hne S hS hstop hdone i r hr hv
    have hg0 := @goodInit_start input climit rs st hrs hne
    have hinv := inv_reach hg0 hS
    have hmem := hinv.validating_inflight i r hr hv
    have hd := hdone _ hmem
    exact absurd hd (by simp)

def initC7 : System := handleValidateStart "sk-stp1".toList 2 [] RunState.idle

def midC7a : System :=
  { initC7 with
    results := updateAt 0 (fun r => { r with status := .validating })
      initC7.results,
    queue := [],
    workers := initC7.workers.set 0 (.inFlight 0) }

def midC7b : System :=
  { midC7a with
    results := midC7a.results.map fun r =>
      if r.status = VStatus.validating then { r with status := .pending }
      else r,
    runState := .stopped }

def endC7 : System := applyFetch midC7b 0 0 (FetchResponse.netFail "aborted")

/-- Witness for C7: a concrete run — pop, stop, then the in-flight call
returning after the stop — settles with the worker done, the state stopped
and no entry `Validating`. -/
theorem c7_stop_settles_no_validating_witness :
    endC7.runState = RunState.stopped ∧
    (∀ w ∈ endC7.workers, w = WorkerState.done) ∧
    ∀ (i : Nat) (r : KeyResult), endC7.results[i]? = some r →
      r.status ≠ VStatus.validating := by
  have hreach : Reach initC7 endC7 :=
    Reach.tail
      (Reach.tail (Reach.tail Reach.refl
        (Step.pop (by decide) (by decide) (by decide)))
        Step.stopRun)
      (Step.fetchDone (by decide))
  refine ⟨by decide, by decide, ?_⟩
  exact c7_stop_settles_no_validating.2 "sk-stp1".toList 2 [] .idle (by simp)
    (by decide) endC7 hreach (by decide) (by decide)

/-- A live snapshot for C8: the run not stopped, worker 0 in flight on the
single `validating` entry. -/
def sC8 : System :=
  { results := [{ key := "sk-c8key".toList, status := .validating,
                  models := [], errorMsg := none }],
    runState := .running,
    queue := [],
    workers := [.inFlight 0] }

/-- C8: classification of a completed call (run not stopped) — a 2xx
response makes the entry `Valid` with models equal to the response ids
filtered to the fixed prefix families and sorted lexicographically (a
sorted permutation of the filtered ids, membership exactly the kept ids); a
non-2xx response makes it `Invalid` with the body's `error.message` when
present and the literal `HTTP <code>` text otherwise; a network failure
makes it `Error` carrying the transport message. -/
theorem c8_response_classification :
    ∀ (S : System) (w i : Nat) (r : KeyResult),
      S.runState ≠ RunState.stopped →
      S.results[i]? = some r →
      (∀ ids, ∃ r2,
        (applyFetch S w i (FetchResponse.ok ids)).results[i]? = some r2 ∧
        r2.status = VStatus.valid ∧
        r2.models = classifyOkModels ids ∧
        List.Sorted LexLeP r2.models ∧
        r2.models.Perm (ids.filter keepModel) ∧
        (∀ m, m ∈ r2.models ↔ m ∈ ids ∧ keepModel m = true)) ∧
      (∀ code bodyMsg, ∃ r2,
        (applyFetch S w i (FetchResponse.httpError code bodyMsg)).results[i]? =
          some r2 ∧
        r2.status = VStatus.invalid ∧
        r2.errorMsg = some (invalidErrorMsg code bodyMsg) ∧
        (∀ m, bodyMsg = some m → r2.errorMsg = some m) ∧
        (bodyMsg = none → r2.errorMsg = some ("HTTP " ++ toString code))) ∧
      ∀ msg, ∃ r2,
        (applyFetch S w i (FetchResponse.netFail msg)).results[i]? = some r2 ∧
        r2.status = VStatus.error ∧ r2.errorMsg = some msg := by
  intro S w i r hns hr
  refine ⟨?_, ?_, ?_⟩
  · intro ids
    refine ⟨{ r with status := .valid, models := classifyOkModels ids },
      ?_, rfl, rfl, sortModels_sorted _, sortModels_perm _, ?_⟩
    · simp only [applyFetch, if_neg hns]
      rw [getElem?_updateAt_self, hr]
      rfl
    · intro m
      rw [show classifyOkModels ids = sortModels (ids.filter keepModel)
        from rfl, mem_sortModels, List.mem_filter]
  · intro code bodyMsg
    refine ⟨{ r with status := .invalid, errorMsg := some (invalidErrorMsg code bodyMsg) }, ?_, rfl, rfl, ?_, ?_⟩
    · simp only [applyFetch, if_neg hns]
      rw [getElem?_updateAt_self, hr]
      rfl
    · intro m hm
      rw [hm]
      rfl
    · intro hm
      rw [hm]
      rfl
  · intro msg
    refine ⟨{ r with status := .error, errorMsg := some msg }, ?_, rfl, rfl⟩
    simp only [applyFetch, if_neg hns]
    rw [getElem?_updateAt_self, hr]
    rfl

/-- Witness for C8 at a concrete snapshot: a 2xx response with one kept and
one dropped id, a 404 with no parsable body, and a transport failure. -/
theorem c8_response_classification_witness :
    (∃ r2, (applyFetch sC8 0 0
        (FetchResponse.ok ["zzz".toList, "gpt-4".toList])).results[0]? =
        some r2 ∧
      r2.status = VStatus.valid ∧
      r2.models = classifyOkModels ["zzz".toList, "gpt-4".toList] ∧
      List.Sorted LexLeP r2.models ∧
      r2.models.Perm (["zzz".toList, "gpt-4".toList].filter keepModel) ∧
      (∀ m, m ∈ r2.models ↔
        m ∈ ["zzz".toList, "gpt-4".toList] ∧ keepModel m = true)) ∧
    (∃ r2, (applyFetch sC8 0 0
        (FetchResponse.httpError 404 none)).results[0]? = some r2 ∧
      r2.status = VStatus.invalid ∧
      r2.errorMsg = some (invalidErrorMsg 404 none) ∧
      (∀ m, (none : Option String) = some m → r2.errorMsg = some m) ∧
      ((none : Option String) = none →
        r2.errorMsg = some ("HTTP " ++ toString 404))) ∧
    ∃ r2, (applyFetch sC8 0 0
        (FetchResponse.netFail "timeout")).results[0]? = some r2 ∧
      r2.status = VStatus.error ∧ r2.errorMsg = some "timeout" := by
  have h := c8_response_classification sC8 0 0
    { key := "sk-c8key".toList, status := .validating, models := [],
      errorMsg := none } (by decide) (by decide)
  exact ⟨h.1 _, h.2.1 404 none, h.2.2 "timeout"⟩

/-- C9: the masking helper renders every credential of length at most 10 as
the fixed string `***`, and any longer credential as its first 7
characters, an ellipsis, and its last 4 characters; at length exactly 11
the two kept segments together are the whole credential, and a character is
actually dropped only from length 12 on. -/
theorem c9_maskKey_spec :
    ∀ key : List Char,
      (key.length ≤ 10 → maskKey key = ['*', '*', '*']) ∧
      (10 < key.length →
        maskKey key =
          key.take 7 ++ ['.', '.', '.'] ++ key.drop (key.length - 4)) ∧
      (key.length = 11 → key.take 7 ++ key.drop (key.length - 4) = key) ∧
      (12 ≤ key.length →
        (key.take 7 ++ key.drop (key.length - 4)).length < key.length) := by
  intro key
  refine ⟨?_, ?_, ?_, ?_⟩
  · intro h
    unfold maskKey
    rw [if_pos h]
  · intro h
    unfold maskKey
    rw [if_neg (by omega)]
  · intro h
    have h7 : key.length - 4 = 7 := by omega
    rw [h7, List.take_append_drop]
  · intro h
    rw [List.length_append, List.length_take, List.length_drop]
    omega

/-- Witness for C9 at keys of length 8 and 12. -/
theorem c9_maskKey_spec_witness :
    maskKey "sk-12345".toList = ['*', '*', '*'] ∧
    maskKey "sk-123456789".toList =
      "sk-123456789".toList.take 7 ++ ['.', '.', '.'] ++
        "sk-123456789".toList.drop ("sk-123456789".toList.length - 4) :=
  ⟨(c9_maskKey_spec _).1 (by decide), (c9_maskKey_spec _).2.1 (by decide)⟩

/-- C10: when the input text contains no substring of the credential token
shape (`sk-` followed by a key-alphabet character), starting a run is a
complete no-op: `handleValidate` returns before any mutation, leaving the
result table, every entry's status, and the run state unchanged, with no
queue built and no worker started. -/
theorem c10_no_match_noop :
    ∀ (input : List Char) (climit : Nat) (rs : List KeyResult) (st : RunState),
      (∀ (l1 : List Char) (c : Char) (l2 : List Char), isKeyChar c →
        input ≠ l1 ++ 's' :: 'k' :: '-' :: c :: l2) →
      handleValidateStart input climit rs st =
        { results := rs, runState := st, queue := [], workers := [] } := by
  intro input climit rs st h
  have huniq : uniqueKeysOfInput input = [] := by
    unfold uniqueKeysOfInput
    rw [scanMatches_eq_nil input h]
    rfl
  unfold handleValidateStart
  rw [huniq]
  rfl

/-- Witness for C10: an input with no `k` at all cannot contain the token
shape, and starting a run on it changes nothing. -/
theorem c10_no_match_noop_witness :
    handleValidateStart "hello world".toList 5
      [{ key := "sk-old".toList, status := .valid, models := [],
         errorMsg := none }] .idle =
      { results := [{ key := "sk-old".toList, status := .valid, models := [],
                      errorMsg := none }],
        runState := .idle, queue := [], workers := [] } := by
  apply c10_no_match_noop
  intro l1 c l2 hc heq
  have hk : 'k' ∈ "hello world".toList := by
    rw [heq]
    simp
  exact absurd hk (by decide)

end KeyValidator
